import Mathlib

/-!
Verification of the hybrid retrieval engine in `graph/retriever.py` of the
lumawell backend.  The code is shallow-embedded: fragment texts are lists of
characters, scores are rationals, the external signal producers (the
sentence-transformer and the tf-idf vectorizer, spec section 4.2) enter as
function parameters or as raw similarity vectors, and every piece of control
flow of the Python source is reproduced by an executable Lean definition.
-/

namespace Lumawell

/-! ## Chunker: `_chunk_text` (retriever.py lines 12 to 35) -/

/-- ASCII whitespace as stripped by Python `str.strip()` on text files. -/
def isSpaceChar (c : Char) : Bool :=
  c == ' ' || c == '\t' || c == '\n' || c == '\r' || c == '\x0b' || c == '\x0c'

/-- Python `p.strip()`: drop whitespace from both ends of the string. -/
def pstrip (s : List Char) : List Char :=
  ((s.dropWhile isSpaceChar).reverse.dropWhile isSpaceChar).reverse

/-- One step (right to left) of the blank-line split: the state is the
length of the newline run just seen, the current piece, and the completed
pieces.  A non-newline character closes the piece when the run has length at
least two (the run itself is discarded, as the regex separator is) and keeps
a shorter run as literal text. -/
def splitStep (c : Char) : Nat × List Char × List (List Char) → Nat × List Char × List (List Char)
  | (nl, cur, done) =>
      if c = '\n' then (nl + 1, cur, done)
      else if 2 ≤ nl then (0, [c], cur :: done)
      else (0, c :: (List.replicate nl '\n' ++ cur), done)

/-- Python `re.split(r"\n\x7b2,\x7d", text)`: split the text at every maximal
run of two or more newline characters, keeping single newlines and producing
empty pieces at the text boundaries exactly as `re.split` does. -/
def splitBlank (text : List Char) : List (List Char) :=
  let st := text.foldr splitStep (0, [], [])
  if 2 ≤ st.1 then [] :: st.2.1 :: st.2.2
  else (List.replicate st.1 '\n' ++ st.2.1) :: st.2.2

/-- The paragraph list of `_chunk_text` (line 13 to 15): split on blank lines,
strip each piece, keep the non-empty pieces; when nothing remains the whole
raw text is the single paragraph. -/
def paragraphs (text : List Char) : List (List Char) :=
  let paras := ((splitBlank text).map pstrip).filter (fun p => !p.isEmpty)
  if paras.isEmpty then [text] else paras

/-- The greedy packing loop of `_chunk_text` (lines 16 to 25): paragraphs are
appended to the buffer while `len(buf) + len(p) + 1 <= size`, joined by a
newline when the buffer is non-empty; otherwise the buffer is flushed (when
non-empty) and the paragraph starts a new buffer; the final buffer is flushed
at the end. -/
def packLoop (size : Nat) : List (List Char) → List (List Char) → List Char → List (List Char)
  | [], chunks, buf => if buf.isEmpty then chunks else chunks ++ [buf]
  | p :: rest, chunks, buf =>
      if buf.length + p.length + 1 ≤ size then
        packLoop size rest chunks (if buf.isEmpty then p else buf ++ '\n' :: p)
      else
        packLoop size rest (if buf.isEmpty then chunks else chunks ++ [buf]) p

/-- The chunk list of `_chunk_text` just before the overlap pass. -/
def packedChunks (text : List Char) (size : Nat) : List (List Char) :=
  packLoop size (paragraphs text) [] []

/-- Python `ch[-overlap:]` for `overlap > 0`: the last `min(overlap, len)`
characters of the string. -/
def lastChars (o : Nat) (s : List Char) : List Char := s.drop (s.length - o)

/-- The overlap pass of `_chunk_text` (lines 28 to 35): every chunk except the
last becomes `tail ++ head` where `tail` is its last `overlap` characters and
`head` is the first `max(0, size - len(tail))` characters of the next chunk;
when `head` is empty the chunk is kept unchanged, and the whole pass is
skipped when `overlap = 0`. -/
def overlapPass (size overlap : Nat) : List (List Char) → List (List Char)
  | [] => []
  | [c] => [c]
  | c :: c2 :: rest =>
      (if 0 < overlap then
        let t := lastChars overlap c
        let hd := c2.take (size - t.length)
        if hd.isEmpty then c else t ++ hd
      else c) :: overlapPass size overlap (c2 :: rest)

/-- `_chunk_text(text, size, overlap)` (retriever.py lines 12 to 35). -/
def chunkText (text : List Char) (size overlap : Nat) : List (List Char) :=
  let chunks := packedChunks text size
  if chunks.isEmpty then [] else overlapPass size overlap chunks

/-! ## Fingerprint: `_fp` (retriever.py lines 40 to 49)

`_fp` feeds bytes into SHA-256 and keeps 16 hex characters of the digest.
The hash itself is a black box that maps equal byte streams to equal
fingerprints, so the fingerprint is verified at the level of its pre-image,
the byte stream `fpInput` below. -/

/-- Decimal ASCII bytes of a natural number, as produced by Python
`str(n).encode()` inside `_fp`. -/
def decBytes (n : Nat) : List Nat :=
  if n = 0 then [48] else (Nat.digits 10 n).reverse.map (· + 48)

/-- A source file as seen by `_fp`: the bytes of `str(f)`, the value of
`f.stat().st_mtime_ns` when `stat` succeeds (`none` models the swallowed
`stat` exception of lines 45 to 48), and the file content, which `_fp`
never reads. -/
structure SrcFile where
  path : List Nat
  mtime : Option Nat
  content : List Nat
deriving DecidableEq

/-- The byte stream `_fp` hashes (lines 40 to 49): the model name, then the
code revision tag, then for every file its path bytes followed by the decimal
bytes of its mtime when `stat` succeeded. -/
def fpInput (files : List SrcFile) (modelName codeRev : List Nat) : List Nat :=
  modelName ++ codeRev ++ files.flatMap fun f =>
    f.path ++ (match f.mtime with | some t => decBytes t | none => [])

/-! ## Index build: `_topic_of` and `_build_index` (retriever.py lines 118 to 180) -/

/-- Boolean substring test, Python `a in b` on strings. -/
def hasSub (pat s : List Char) : Bool := decide (pat <:+: s)

/-- `_topic_of(name)` (lines 118 to 125): keyword rules on the lower-cased
file name, falling back to `general`. -/
def topicOf (name : String) : String :=
  let n := name.data.map Char.toLower
  if hasSub "skin".data n || hasSub "care".data n then "skincare"
  else if hasSub "exercise".data n || hasSub "train".data n then "exercise"
  else if hasSub "diet".data n || hasSub "nutri".data n then "diet"
  else if hasSub "sleep".data n then "sleep"
  else if hasSub "psychology".data n then "psychology"
  else "general"

/-- One entry of `self.chunks`: the fragment text and the metadata dict built
at lines 134 to 146, with `path` already in the normalized form produced by
`_norm_path`. -/
structure Chunk where
  text : List Char
  path : String
  chunk_id : String
  topic : String
deriving DecidableEq

/-- The built-in fallback corpus (lines 132 to 138). -/
def builtinChunks : List Chunk :=
  [ ⟨"基础饮食：全食物、蛋白1.6–2.2g/kg，TDEE±300kcal 调整。".data, "builtin/diet", "diet-1", "diet"⟩
  , ⟨"基础训练：抗阻每周3–5次，心肺150–300分钟。".data, "builtin/exercise", "ex-1", "exercise"⟩
  , ⟨"基础护肤：清洁+保湿+防晒；活性按耐受。".data, "builtin/skincare", "sk-1", "skincare"⟩ ]

/-- A matched knowledge-base file: its name `f.name`, its normalized path,
and its decoded text. -/
structure FileDoc where
  name : String
  path : String
  text : List Char
deriving DecidableEq

/-- The chunk list built by `_build_index` (lines 131 to 146): the builtin
corpus when no `*.md` file matched, otherwise every chunk of every file in
order, with the 1-based citation label `name §i` and the topic of the file
name. -/
def buildChunks (files : List FileDoc) (size overlap : Nat) : List Chunk :=
  if files.isEmpty then builtinChunks
  else files.flatMap fun f =>
    (chunkText f.text size overlap).enum.map fun pr =>
      ⟨pr.2, f.path, f.name ++ " §" ++ toString (pr.1 + 1), topicOf f.name⟩

/-- The index state set up by `_build_index` or restored from the cache:
`self.chunks`, `self.embed_mat` and `self.tfidf_mat` (`none` both when hybrid
scoring is disabled and when a loaded cache dict has no such key). -/
structure Index where
  chunks : List Chunk
  embed_mat : List (List ℚ)
  tfidf_mat : Option (List (List ℚ))
deriving DecidableEq

/-- `_build_index` (lines 127 to 180).  The two signal producers are the
external collaborators of spec section 4.2, entering as parameters: `encode`
maps one passage text to its dense row (`model.encode` maps a list of texts
to the list of their rows), and `lexRow corpus` maps one passage to its
sparse weight row under the vocabulary fitted on `corpus`
(`fit_transform(passages)` returns exactly the rows `passages.map (lexRow
passages)`).  Dense rows are computed over the prefixed passages, lexical
rows over the plain texts (lines 148 to 167). -/
def buildIndex (encode : List Char → List ℚ)
    (lexRow : List (List Char) → List Char → List ℚ)
    (enableHybrid : Bool) (files : List FileDoc) (size overlap : Nat) : Index :=
  let chunks := buildChunks files size overlap
  let passagesEmbed := chunks.map fun c => "passage: ".data ++ c.text
  let passagesLex := chunks.map (·.text)
  { chunks := chunks
    embed_mat := passagesEmbed.map encode
    tfidf_mat := if enableHybrid then some (passagesLex.map (lexRow passagesLex)) else none }

/-! ## Constructor cache policy: `__init__` (retriever.py lines 101 to 116) -/

/-- Outcome of probing the cache file in `__init__`: the file does not exist;
or opening, unpickling or a field access raised (all caught by the bare
`except` at line 113); or a cache dict was read, carrying a stored
fingerprint and the index it holds. -/
inductive CacheProbe where
  | missing
  | failed
  | loaded (fingerprint : String) (idx : Index)
deriving DecidableEq

/-- The cache decision of `__init__` (lines 101 to 116): the loaded index is
used only when the stored fingerprint equals the current one; in every other
case `_build_index` runs and its result `fresh` is installed.  The function
is total: no branch propagates an error. -/
def initIndex (current : String) (c : CacheProbe) (fresh : Index) : Index :=
  match c with
  | .missing => fresh
  | .failed => fresh
  | .loaded fp idx => if fp = current then idx else fresh

/-- The invariant of spec section 3: one dense row per fragment, and one
lexical row per fragment whenever the lexical matrix exists. -/
def IndexInv (ix : Index) : Prop :=
  ix.embed_mat.length = ix.chunks.length ∧
  ∀ m, ix.tfidf_mat = some m → m.length = ix.chunks.length

/-! ## Search: `search` (retriever.py lines 191 to 234)

The query-side outputs of the external collaborators are inputs here: `rawE`
is `embed_mat @ qv` (one dot product per fragment), `rawT` is the tf-idf
similarity vector after `minmax_scale` (or the zero vector when hybrid
scoring is off), and `hint` is `_infer_topic(query)`.  Everything from topic
gating to ranking is the code of `search`. -/

/-- `np.clip(x, 0.0, 1.0)` on one entry. -/
def clip01 (x : ℚ) : ℚ := max 0 (min x 1)

/-- The configuration fields of the retriever that `search` reads. -/
structure SearchParams where
  minScore : ℚ
  topicBoost : ℚ
  offTopicPenalty : ℚ
  embedWeight : ℚ
  tfidfWeight : ℚ

/-- Topic gating (lines 205 to 211): with a hint, every similarity is
multiplied by `topic_boost` where the fragment topic equals the hint and by
`off_topic_penalty` elsewhere; with no hint the vector is untouched. -/
def gateVec (P : SearchParams) (hint : Option String) (topics : List String)
    (sims : List ℚ) : List ℚ :=
  match hint with
  | none => sims
  | some h => List.zipWith
      (fun t s => (if t = h then P.topicBoost else P.offTopicPenalty) * s) topics sims

/-- `sims_embed` after gating and clamping (lines 205 to 214). -/
def embedScores (P : SearchParams) (hint : Option String) (topics : List String)
    (rawE : List ℚ) : List ℚ :=
  (gateVec P hint topics rawE).map clip01

/-- `sims_tfidf` after gating and clamping (lines 205 to 215). -/
def tfidfScores (P : SearchParams) (hint : Option String) (topics : List String)
    (rawT : List ℚ) : List ℚ :=
  (gateVec P hint topics rawT).map clip01

/-- The fused vector of line 218, before the final clamp. -/
def fuseRaw (P : SearchParams) (hint : Option String) (topics : List String)
    (rawE rawT : List ℚ) : List ℚ :=
  List.zipWith (fun e s => P.embedWeight * e + P.tfidfWeight * s)
    (embedScores P hint topics rawE) (tfidfScores P hint topics rawT)

/-- `sims_hybrid` (lines 218 to 219): the fused vector clamped to `[0,1]`. -/
def hybridScores (P : SearchParams) (hint : Option String) (topics : List String)
    (rawE rawT : List ℚ) : List ℚ :=
  (fuseRaw P hint topics rawE rawT).map clip01

/-- The per-fragment multiplier of the gating step: 1 when there is no
hint (`np.where` never runs), otherwise `topic_boost` on a topic match and
`off_topic_penalty` otherwise. -/
def gfac (P : SearchParams) (hint : Option String) (t : String) : ℚ :=
  match hint with
  | none => 1
  | some h => if t = h then P.topicBoost else P.offTopicPenalty

/-- Insert an index into an index list already ordered by key descending,
behind every entry whose key is at least as large. -/
def insertByKeyDesc (keys : List ℚ) (i : Nat) : List Nat → List Nat
  | [] => [i]
  | j :: rest =>
      if keys.getD j 0 < keys.getD i 0 then i :: j :: rest
      else j :: insertByKeyDesc keys i rest

/-- Model of `np.argsort(-keys)` restricted to the index set `is` and read
off in order: a permutation of `is` ordered by key descending.  `np.argsort`
under its default quicksort kind only promises some order that sorts the
keys — the relative order of equal keys is unspecified — so this definition
fixes one admissible outcome (insertion in original order).  No theorem
below depends on which order among equal keys is realised. -/
def argsortDesc (keys : List ℚ) (is : List Nat) : List Nat :=
  is.foldl (fun acc i => insertByKeyDesc keys i acc) []

/-- One returned tuple `(text, meta, score_hybrid, str(rank))` of `search`
(lines 225 to 233), with the mutated metadata dict flattened into fields and
the 1-based rank kept as the number `str` is applied to. -/
structure ScoredResult where
  text : List Char
  path : String
  chunk_id : String
  topic : String
  score_embed : ℚ
  score_tfidf : ℚ
  score_hybrid : ℚ
  rank : Nat
deriving DecidableEq

/-- Line 222: the candidate indices, those whose hybrid score reaches
`min_score`. -/
def candIdxs (P : SearchParams) (hyb : List ℚ) : List Nat :=
  (List.range hyb.length).filter fun i => P.minScore ≤ hyb.getD i 0

/-- Line 223: the ranked index selection.  When some index clears the
threshold, the candidates are ordered by hybrid score descending and cut to
`k`; otherwise the same is done over all indices. -/
def topIdxs (P : SearchParams) (hyb : List ℚ) (k : Nat) : List Nat :=
  if (candIdxs P hyb).isEmpty then (argsortDesc hyb (List.range hyb.length)).take k
  else (argsortDesc hyb (candIdxs P hyb)).take k

/-- `search(query, k)` (lines 191 to 234): gate, clamp, fuse, keep the
indices whose hybrid score reaches `min_score` (falling back to all indices
when none does), order by hybrid score descending, truncate to `k`, and emit
the annotated results in rank order. -/
def search (P : SearchParams) (chunks : List Chunk) (hint : Option String)
    (rawE rawT : List ℚ) (k : Nat) : List ScoredResult :=
  let topics := chunks.map (·.topic)
  let e := embedScores P hint topics rawE
  let s := tfidfScores P hint topics rawT
  let hyb := hybridScores P hint topics rawE rawT
  (topIdxs P hyb k).enum.map fun pr =>
    let c := chunks.getD pr.2 ⟨[], "", "", ""⟩
    ⟨c.text, c.path, c.chunk_id, c.topic,
      e.getD pr.2 0, s.getD pr.2 0, hyb.getD pr.2 0, pr.1 + 1⟩

/-- Restriction of a score vector to the fragments whose topic satisfies
`p`, pairing positionally as in the source arrays. -/
def scoresOn (p : String → Bool) (topics : List String) (scores : List ℚ) : List ℚ :=
  (((topics.zip scores).filter fun q => p q.1).map Prod.snd)

/-- Average of the scores of the fragments whose topic satisfies `p`
(zero when no fragment qualifies). -/
def avgOn (p : String → Bool) (topics : List String) (scores : List ℚ) : ℚ :=
  (scoresOn p topics scores).sum / ((scoresOn p topics scores).length : ℚ)

/-! ## Helper lemmas -/

/-- The decimal byte encoding used inside `_fp` is injective. -/
theorem decBytes_injective : Function.Injective decBytes := by
  have hadd : Function.Injective (fun x : Nat => x + 48) := fun x y hxy => by
    simp only [] at hxy
    omega
  have hz : ∀ n : Nat, n ≠ 0 → (Nat.digits 10 n).reverse.map (· + 48) ≠ [48] := by
    intro n hn hmap
    have hlen : ((Nat.digits 10 n).reverse.map (· + 48)).length = 1 := by rw [hmap]; rfl
    simp only [List.length_map, List.length_reverse] at hlen
    obtain ⟨d, hd⟩ := List.length_eq_one.mp hlen
    rw [hd] at hmap
    simp only [List.reverse_cons, List.reverse_nil, List.nil_append, List.map_cons,
      List.map_nil, List.cons.injEq] at hmap
    have hd0 : d = 0 := by omega
    have : n = 0 := by
      have := Nat.ofDigits_digits 10 n
      rw [hd, hd0] at this
      simpa [Nat.ofDigits] using this.symm
    exact hn this
  intro a b h
  by_cases ha : a = 0 <;> by_cases hb : b = 0
  · rw [ha, hb]
  · exact absurd (by simpa [decBytes, ha, hb] using h.symm) (hz b hb)
  · exact absurd (by simpa [decBytes, ha, hb] using h) (hz a ha)
  · have h2 : (Nat.digits 10 a).reverse = (Nat.digits 10 b).reverse :=
      List.map_injective_iff.mpr hadd (by simpa [decBytes, ha, hb] using h)
    have h3 : Nat.digits 10 a = Nat.digits 10 b := List.reverse_injective h2
    calc a = Nat.ofDigits 10 (Nat.digits 10 a) := (Nat.ofDigits_digits 10 a).symm
      _ = Nat.ofDigits 10 (Nat.digits 10 b) := by rw [h3]
      _ = b := Nat.ofDigits_digits 10 b

/-- The overlap pass keeps the number of chunks. -/
theorem overlapPass_length (s o : Nat) : ∀ l : List (List Char), (overlapPass s o l).length = l.length
  | [] => rfl
  | [_] => rfl
  | _ :: c2 :: rest => by
      simp only [overlapPass, List.length_cons]
      rw [overlapPass_length s o (c2 :: rest)]
      simp

/-- Element formula of the overlap pass for every position except the last. -/
theorem overlapPass_getD (s o : Nat) (ho : 0 < o) :
    ∀ (l : List (List Char)) (i : Nat), i + 1 < l.length →
      (overlapPass s o l).getD i [] =
        (let c := l.getD i []
         let t := lastChars o c
         let hd := (l.getD (i + 1) []).take (s - t.length)
         if hd.isEmpty then c else t ++ hd)
  | [], i, h => by simp at h
  | [_], i, h => by simp at h
  | c :: c2 :: rest, 0, h => by simp [overlapPass, ho]
  | c :: c2 :: rest, i + 1, h => by
      have hrec := overlapPass_getD s o ho (c2 :: rest) i (by simpa using h)
      simpa [overlapPass] using hrec

/-- clip01 never goes below 0. -/
theorem clip01_nonneg (x : ℚ) : 0 ≤ clip01 x := le_max_left 0 _

/-- clip01 never exceeds 1. -/
theorem clip01_le_one (x : ℚ) : clip01 x ≤ 1 := max_le zero_le_one (min_le_right x 1)

/-- clip01 is monotone. -/
theorem clip01_mono {x y : ℚ} (h : x ≤ y) : clip01 x ≤ clip01 y :=
  max_le_max le_rfl (min_le_min h le_rfl)

/-- clip01 sends nonpositive values to 0. -/
theorem clip01_of_nonpos {x : ℚ} (h : x ≤ 0) : clip01 x = 0 := by
  unfold clip01
  rw [min_eq_left (h.trans zero_le_one), max_eq_left h]

/-- Entries read out of a clamped vector are in the unit interval, the
out-of-range default 0 included. -/
theorem getD_map_clip01 (l : List ℚ) (i : Nat) :
    0 ≤ (l.map clip01).getD i 0 ∧ (l.map clip01).getD i 0 ≤ 1 := by
  by_cases h : i < (l.map clip01).length
  · rw [List.getD_eq_getElem _ _ h, List.getElem_map]
    exact ⟨clip01_nonneg _, clip01_le_one _⟩
  · rw [List.getD_eq_default _ _ (le_of_not_lt h)]
    exact ⟨le_rfl, zero_le_one⟩

/-- Inserting by key produces a permutation of pushing in front. -/
theorem insertByKeyDesc_perm (keys : List ℚ) (i : Nat) :
    ∀ l : List Nat, List.Perm (insertByKeyDesc keys i l) (i :: l)
  | [] => List.Perm.refl _
  | j :: rest => by
      by_cases h : keys.getD j 0 < keys.getD i 0
      · simp only [insertByKeyDesc, if_pos h]
        exact List.Perm.refl _
      · simp only [insertByKeyDesc, if_neg h]
        exact ((insertByKeyDesc_perm keys i rest).cons j).trans (List.Perm.swap i j rest)

/-- The insertion-sort fold permutes its input onto the accumulator. -/
theorem argsortDesc_foldl_perm (keys : List ℚ) :
    ∀ (is acc : List Nat),
      List.Perm (is.foldl (fun a j => insertByKeyDesc keys j a) acc) (is ++ acc)
  | [], acc => by simp
  | x :: xs, acc => by
      simp only [List.foldl_cons]
      refine (argsortDesc_foldl_perm keys xs (insertByKeyDesc keys x acc)).trans ?_
      exact (List.Perm.append_left xs (insertByKeyDesc_perm keys x acc)).trans
        List.perm_middle

/-- The argsort model returns a permutation of its index set. -/
theorem argsortDesc_perm (keys : List ℚ) (is : List Nat) :
    List.Perm (argsortDesc keys is) is := by
  simpa using argsortDesc_foldl_perm keys is []

/-- Length of the truncated argsort. -/
theorem take_argsort_length (keys : List ℚ) (is : List Nat) (k : Nat) :
    ((argsortDesc keys is).take k).length = min k is.length := by
  rw [List.length_take, (argsortDesc_perm keys is).length_eq]

/-- Membership characterisation of the candidate set. -/
theorem mem_candIdxs (P : SearchParams) (hyb : List ℚ) (j : Nat) :
    j ∈ candIdxs P hyb ↔ j < hyb.length ∧ P.minScore ≤ hyb.getD j 0 := by
  simp [candIdxs, List.mem_filter, List.mem_range]

/-- The ranked index selection never exceeds `k` indices nor the number of
score entries. -/
theorem topIdxs_length (P : SearchParams) (hyb : List ℚ) (k : Nat) :
    (topIdxs P hyb k).length ≤ min k hyb.length := by
  have hc : (candIdxs P hyb).length ≤ hyb.length := by
    have := List.length_filter_le (fun i => decide (P.minScore ≤ hyb.getD i 0)) (List.range hyb.length)
    simpa [candIdxs] using this
  unfold topIdxs
  by_cases he : (candIdxs P hyb).isEmpty
  · rw [if_pos he, take_argsort_length, List.length_range]
  · rw [if_neg he, take_argsort_length]
    omega

/-- The ranked index selection is non-empty when `k ≥ 1` and scores exist. -/
theorem topIdxs_pos (P : SearchParams) (hyb : List ℚ) (k : Nat)
    (hk : 1 ≤ k) (hn : 0 < hyb.length) : 0 < (topIdxs P hyb k).length := by
  unfold topIdxs
  by_cases he : (candIdxs P hyb).isEmpty
  · rw [if_pos he, take_argsort_length, List.length_range]
    omega
  · rw [if_neg he, take_argsort_length]
    have : (candIdxs P hyb).length ≠ 0 :=
      fun h0 => he (List.isEmpty_iff_length_eq_zero.mpr h0)
    omega

/-- When some index clears the threshold, every selected index is a
candidate. -/
theorem topIdxs_subset_cand (P : SearchParams) (hyb : List ℚ) (k : Nat)
    (hne : (candIdxs P hyb).isEmpty = false) :
    ∀ j ∈ topIdxs P hyb k, j ∈ candIdxs P hyb := by
  intro j hj
  unfold topIdxs at hj
  rw [hne] at hj
  simp only [Bool.false_eq_true, if_false] at hj
  exact (argsortDesc_perm hyb (candIdxs P hyb)).mem_iff.mp (List.take_subset _ _ hj)

/-- Length of the gated vector when the two sides agree. -/
theorem gateVec_length (P : SearchParams) (hint : Option String) (topics : List String)
    (sims : List ℚ) (h : sims.length = topics.length) :
    (gateVec P hint topics sims).length = topics.length := by
  cases hint <;> simp [gateVec, h]

/-- The hybrid vector has one entry per fragment when the raw vectors do. -/
theorem hybridScores_length (P : SearchParams) (hint : Option String)
    (topics : List String) (rawE rawT : List ℚ)
    (h1 : rawE.length = topics.length) (h2 : rawT.length = topics.length) :
    (hybridScores P hint topics rawE rawT).length = topics.length := by
  simp [hybridScores, fuseRaw, embedScores, tfidfScores,
    gateVec_length P hint topics rawE h1, gateVec_length P hint topics rawT h2]

section ClaimTheorems

/- The arithmetic of `Rat` is `@[irreducible]` in the library; witnesses
evaluate concrete scores with `decide`, which needs these definitions to
unfold. -/
attribute [local semireducible] Rat.mul Rat.add Rat.sub Rat.inv

/-! ## Claim theorems -/

/-- C1, counterexample: two corpus states that differ only in the content of
a source file (same path, same mtime) feed the identical byte stream to
SHA-256 inside `_fp`, hence get the identical fingerprint: `_fp` hashes only
paths and mtimes, never file content, so a content change alone does not
invalidate the cache. -/
theorem fingerprint_ignores_content :
    fpInput [⟨[97], some 5, [48]⟩] [109] [114] = fpInput [⟨[97], some 5, [49]⟩] [109] [114] ∧
      ([48] : List Nat) ≠ [49] := by
  refine ⟨rfl, by decide⟩

/-- C1 (amended): for a fixed corpus, model identifier and version tag, any
change to the modification time of one source file (with `stat` succeeding
before and after, and everything else unchanged) yields a different `_fp`
byte stream, hence a fingerprint mismatch in `__init__` and a rebuild;
content changes are detected only through the modification time. -/
theorem fingerprint_mtime_change (pre post : List SrcFile)
    (modelName codeRev p c c' : List Nat) (t t' : Nat) (hne : t ≠ t') :
    fpInput (pre ++ ⟨p, some t, c⟩ :: post) modelName codeRev ≠
      fpInput (pre ++ ⟨p, some t', c'⟩ :: post) modelName codeRev := by
  intro h
  apply hne
  apply decBytes_injective
  simp only [fpInput, List.flatMap_append, List.flatMap_cons, List.append_assoc] at h
  have h1 := List.append_cancel_left h
  have h2 := List.append_cancel_left h1
  have h3 := List.append_cancel_left h2
  have h4 := List.append_cancel_left h3
  exact List.append_cancel_right h4

/-- C1 witness: the amended theorem applied at a one-file corpus whose mtime
moves from 5 to 6. -/
theorem fingerprint_mtime_change_witness :
    (5 : Nat) ≠ 6 ∧
      fpInput [⟨[97], some 5, [48]⟩] [109] [114] ≠ fpInput [⟨[97], some 6, [48]⟩] [109] [114] :=
  ⟨by decide, fingerprint_mtime_change [] [] [109] [114] [97] [48] [48] 5 6 (by decide)⟩

/-- C5, counterexample: on the document `ab`, blank line, `cdefghij` with
size 10 and overlap 5, the packed chunks are `ab` and `cdefghij`; the claim
says the first stored fragment becomes the last 5 characters of `ab`
followed by the first 10 − 5 = 5 characters of `cdefghij` (`abcdefg`), but
`_chunk_text` produces `ab` followed by the first 10 − len(`ab`) = 8
characters (`abcdefgh ij` without the blank, that is `abcdefghij`). -/
theorem chunk_overlap_claim_false :
    ¬ ((chunkText "ab\n\ncdefghij".data 10 5).getD 0 [] =
        lastChars 5 ((packedChunks "ab\n\ncdefghij".data 10).getD 0 []) ++
          ((packedChunks "ab\n\ncdefghij".data 10).getD 1 []).take (10 - 5)) := by
  decide

/-- C5 (amended): for every document, size `S` and overlap `O > 0`, every
fragment except the last has its stored text replaced by `tail ++ head`,
where `tail` is the last `O` characters of its own packed text (the whole
text when it is shorter than `O`) and `head` is the first `S − len(tail)`
characters of the following packed fragment — not the first `S − O` — and
the fragment keeps its original packed text when `head` is empty; the
number of fragments is unchanged. -/
theorem chunk_overlap_replacement (text : List Char) (size overlap : Nat)
    (ho : 0 < overlap) (i : Nat) (hi : i + 1 < (packedChunks text size).length) :
    (chunkText text size overlap).length = (packedChunks text size).length ∧
    (chunkText text size overlap).getD i [] =
      (let c := (packedChunks text size).getD i []
       let t := lastChars overlap c
       let hd := ((packedChunks text size).getD (i + 1) []).take (size - t.length)
       if hd.isEmpty then c else t ++ hd) := by
  have hne : (packedChunks text size).isEmpty = false := by
    cases hp : packedChunks text size with
    | nil => rw [hp] at hi; simp at hi
    | cons a l => rfl
  constructor
  · simp [chunkText, hne, overlapPass_length]
  · simp only [chunkText, hne, Bool.false_eq_true, if_false]
    exact overlapPass_getD size overlap ho (packedChunks text size) i hi

/-- C5 witness: the amended theorem applied to the counterexample document,
fully evaluated. -/
theorem chunk_overlap_replacement_witness :
    0 < 5 ∧ 0 + 1 < (packedChunks "ab\n\ncdefghij".data 10).length ∧
      (chunkText "ab\n\ncdefghij".data 10 5).getD 0 [] = "abcdefghij".data := by
  refine ⟨by decide, by decide, ?_⟩
  rw [(chunk_overlap_replacement "ab\n\ncdefghij".data 10 5 (by decide) 0 (by decide)).2]
  decide

/-- C6: whenever the cache probe failed (unreadable or undeserialisable
cache file, any exception caught by the bare `except`) or delivered a stored
fingerprint different from the current one, the constructor installs the
freshly built index — the same index it installs when no cache file exists —
and `initIndex` is a total function, so no error propagates. -/
theorem cache_error_rebuild (current : String) (fresh : Index) (c : CacheProbe)
    (h : c = CacheProbe.failed ∨ ∃ fp idx, c = CacheProbe.loaded fp idx ∧ fp ≠ current) :
    initIndex current c fresh = fresh ∧ initIndex current CacheProbe.missing fresh = fresh := by
  refine ⟨?_, rfl⟩
  rcases h with h | ⟨fp, idx, rfl, hne⟩
  · subst h
    rfl
  · simp [initIndex, hne]

/-- C6 witness: a failed cache probe at a concrete fresh index. -/
theorem cache_error_rebuild_witness :
    initIndex "f16" CacheProbe.failed ⟨builtinChunks, [], none⟩ = ⟨builtinChunks, [], none⟩ ∧
      initIndex "f16" CacheProbe.missing ⟨builtinChunks, [], none⟩ = ⟨builtinChunks, [], none⟩ :=
  cache_error_rebuild "f16" ⟨builtinChunks, [], none⟩ CacheProbe.failed (Or.inl rfl)

/-- C8: when no source file matches, `_build_index` indexes exactly the
three built-in fragments, tagged with topics diet, exercise and skincare in
this order, so the engine is queryable on an empty corpus. -/
theorem empty_corpus_builtin (size overlap : Nat) :
    buildChunks [] size overlap = builtinChunks ∧
    (buildChunks [] size overlap).length = 3 ∧
    (buildChunks [] size overlap).map (·.topic) = ["diet", "exercise", "skincare"] :=
  ⟨rfl, rfl, rfl⟩

/-- C9: the index built by `_build_index` has one dense row per fragment and,
whenever the lexical matrix exists, one lexical row per fragment; and the
constructor preserves this invariant: it installs either the fresh index or a
loaded one, so when every index the cache can deliver satisfies the invariant
(as any cache written by `_build_index` does), the installed index satisfies
it.  `search` reads the index purely and never mutates it, so the invariant
still holds at every subsequent call. -/
theorem index_row_invariant (encode : List Char → List ℚ)
    (lexRow : List (List Char) → List Char → List ℚ) (enableHybrid : Bool)
    (files : List FileDoc) (size overlap : Nat) (current : String) (c : CacheProbe)
    (hc : ∀ fp idx, c = CacheProbe.loaded fp idx → IndexInv idx) :
    IndexInv (buildIndex encode lexRow enableHybrid files size overlap) ∧
    IndexInv (initIndex current c (buildIndex encode lexRow enableHybrid files size overlap)) := by
  have hb : IndexInv (buildIndex encode lexRow enableHybrid files size overlap) := by
    constructor
    · simp [buildIndex]
    · intro m hm
      by_cases he : enableHybrid
      · simp only [buildIndex, he, if_true] at hm
        obtain rfl : _ = m := Option.some_injective _ hm
        simp [buildIndex]
      · simp [buildIndex, he] at hm
  refine ⟨hb, ?_⟩
  cases c with
  | missing => exact hb
  | failed => exact hb
  | loaded fp idx =>
      by_cases hfp : fp = current
      · simpa [initIndex, hfp] using hc fp idx rfl
      · simpa [initIndex, hfp] using hb

/-- C9 witness: the invariant theorem at a concrete build with no cache. -/
theorem index_row_invariant_witness :
    IndexInv (buildIndex (fun _ => []) (fun _ _ => []) true [] 900 120) ∧
    IndexInv (initIndex "f16" CacheProbe.missing
      (buildIndex (fun _ => []) (fun _ _ => []) true [] 900 120)) :=
  index_row_invariant (fun _ => []) (fun _ _ => []) true [] 900 120 "f16" CacheProbe.missing
    (fun _ _ h => CacheProbe.noConfusion h)

/-- C3: for every index whose raw similarity vectors have one entry per
fragment (the C9 invariant), every hint and every `k ≥ 0`, `search` returns
at most `min(k, fragment_count)` results, and every attached score —
`score_embed`, `score_tfidf` and `score_hybrid` — lies in `[0,1]`. -/
theorem search_length_scores (P : SearchParams) (chunks : List Chunk) (hint : Option String)
    (rawE rawT : List ℚ) (k : Nat)
    (hE : rawE.length = chunks.length) (hT : rawT.length = chunks.length) :
    (search P chunks hint rawE rawT k).length ≤ min k chunks.length ∧
    ∀ r ∈ search P chunks hint rawE rawT k,
      (0 ≤ r.score_embed ∧ r.score_embed ≤ 1) ∧
      (0 ≤ r.score_tfidf ∧ r.score_tfidf ≤ 1) ∧
      (0 ≤ r.score_hybrid ∧ r.score_hybrid ≤ 1) := by
  have h1 : rawE.length = (chunks.map (·.topic)).length := by
    rw [List.length_map]; exact hE
  have h2 : rawT.length = (chunks.map (·.topic)).length := by
    rw [List.length_map]; exact hT
  have hhyb : (hybridScores P hint (chunks.map (·.topic)) rawE rawT).length = chunks.length := by
    rw [hybridScores_length P hint (chunks.map (·.topic)) rawE rawT h1 h2, List.length_map]
  constructor
  · have htop := topIdxs_length P (hybridScores P hint (chunks.map (·.topic)) rawE rawT) k
    simp only [search, List.length_map, List.enum_length]
    omega
  · intro r hr
    simp only [search, List.mem_map] at hr
    obtain ⟨pr, hpr, rfl⟩ := hr
    have hx := getD_map_clip01 (gateVec P hint (chunks.map (·.topic)) rawE) pr.2
    have hy := getD_map_clip01 (gateVec P hint (chunks.map (·.topic)) rawT) pr.2
    have hz := getD_map_clip01 (fuseRaw P hint (chunks.map (·.topic)) rawE rawT) pr.2
    exact ⟨⟨hx.1, hx.2⟩, ⟨hy.1, hy.2⟩, ⟨hz.1, hz.2⟩⟩

/-- C3 witness: the bound and the score ranges at a three-fragment index
with concrete raw vectors and `k = 2`. -/
theorem search_length_scores_witness :
    ([1/2, -3, 2] : List ℚ).length =
      ([⟨[], "p", "c1", "diet"⟩, ⟨[], "q", "c2", "exercise"⟩,
        ⟨[], "r", "c3", "skincare"⟩] : List Chunk).length ∧
    (search ⟨15/100, 13/10, 6/10, 7/10, 3/10⟩
        [⟨[], "p", "c1", "diet"⟩, ⟨[], "q", "c2", "exercise"⟩, ⟨[], "r", "c3", "skincare"⟩]
        none [1/2, -3, 2] [0, 1/4, 1] 2).length ≤
      min 2 ([⟨[], "p", "c1", "diet"⟩, ⟨[], "q", "c2", "exercise"⟩,
        ⟨[], "r", "c3", "skincare"⟩] : List Chunk).length ∧
    ∀ r ∈ search ⟨15/100, 13/10, 6/10, 7/10, 3/10⟩
        [⟨[], "p", "c1", "diet"⟩, ⟨[], "q", "c2", "exercise"⟩, ⟨[], "r", "c3", "skincare"⟩]
        none [1/2, -3, 2] [0, 1/4, 1] 2,
      (0 ≤ r.score_embed ∧ r.score_embed ≤ 1) ∧
      (0 ≤ r.score_tfidf ∧ r.score_tfidf ≤ 1) ∧
      (0 ≤ r.score_hybrid ∧ r.score_hybrid ≤ 1) := by
  have h := search_length_scores ⟨15/100, 13/10, 6/10, 7/10, 3/10⟩
    [⟨[], "p", "c1", "diet"⟩, ⟨[], "q", "c2", "exercise"⟩, ⟨[], "r", "c3", "skincare"⟩]
    none [1/2, -3, 2] [0, 1/4, 1] 2 (by decide) (by decide)
  exact ⟨by decide, h.1, h.2⟩

/-- C4: on a non-empty index with well-shaped raw vectors and `k ≥ 1`,
`search` never returns an empty sequence: when no fragment reaches
`min_score` the candidate set is empty and line 223 falls back to ranking
the full fragment set, so the threshold alone never empties the result. -/
theorem search_nonempty (P : SearchParams) (chunks : List Chunk) (hint : Option String)
    (rawE rawT : List ℚ) (k : Nat) (hk : 1 ≤ k) (hn : chunks ≠ [])
    (hE : rawE.length = chunks.length) (hT : rawT.length = chunks.length) :
    search P chunks hint rawE rawT k ≠ [] := by
  have h1 : rawE.length = (chunks.map (·.topic)).length := by
    rw [List.length_map]; exact hE
  have h2 : rawT.length = (chunks.map (·.topic)).length := by
    rw [List.length_map]; exact hT
  have hhyb : (hybridScores P hint (chunks.map (·.topic)) rawE rawT).length = chunks.length := by
    rw [hybridScores_length P hint (chunks.map (·.topic)) rawE rawT h1 h2, List.length_map]
  have hpos : 0 < (hybridScores P hint (chunks.map (·.topic)) rawE rawT).length := by
    rw [hhyb]
    exact List.length_pos.mpr hn
  have htop := topIdxs_pos P (hybridScores P hint (chunks.map (·.topic)) rawE rawT) k hk hpos
  intro hcontra
  have hlen : (search P chunks hint rawE rawT k).length = 0 := by rw [hcontra]; rfl
  simp only [search, List.length_map, List.enum_length] at hlen
  omega

/-- C4 witness: `min_score = 2` is above every achievable hybrid score, yet
the one-fragment search still returns a result. -/
theorem search_nonempty_witness :
    (1 ≤ 1 ∧ ([⟨[], "p", "c", "diet"⟩] : List Chunk) ≠ []) ∧
    search ⟨2, 13/10, 6/10, 7/10, 3/10⟩ [⟨[], "p", "c", "diet"⟩] none [1/2] [0] 1 ≠ [] :=
  ⟨⟨le_rfl, by decide⟩,
    search_nonempty ⟨2, 13/10, 6/10, 7/10, 3/10⟩ [⟨[], "p", "c", "diet"⟩] none [1/2] [0] 1
      le_rfl (by decide) (by decide) (by decide)⟩

/-- C10: when at least one fragment clears `min_score`, the candidate set of
line 222 is non-empty, line 223 selects only from it, and therefore every
result returned by `search` has `score_hybrid ≥ min_score`: fragments below
the threshold are never mixed in, even when fewer than `k` clear it. -/
theorem search_respects_threshold (P : SearchParams) (chunks : List Chunk)
    (hint : Option String) (rawE rawT : List ℚ) (k : Nat)
    (hex : ∃ i, i < (hybridScores P hint (chunks.map (·.topic)) rawE rawT).length ∧
      P.minScore ≤ (hybridScores P hint (chunks.map (·.topic)) rawE rawT).getD i 0) :
    ∀ r ∈ search P chunks hint rawE rawT k, P.minScore ≤ r.score_hybrid := by
  obtain ⟨i, hi, hsc⟩ := hex
  have hmem : i ∈ candIdxs P (hybridScores P hint (chunks.map (·.topic)) rawE rawT) :=
    (mem_candIdxs _ _ _).mpr ⟨hi, hsc⟩
  have hne : (candIdxs P (hybridScores P hint (chunks.map (·.topic)) rawE rawT)).isEmpty = false := by
    cases hc : candIdxs P (hybridScores P hint (chunks.map (·.topic)) rawE rawT) with
    | nil => rw [hc] at hmem; cases hmem
    | cons a l => rfl
  intro r hr
  simp only [search, List.mem_map] at hr
  obtain ⟨pr, hpr, rfl⟩ := hr
  obtain ⟨rk, j⟩ := pr
  have hj : j ∈ topIdxs P (hybridScores P hint (chunks.map (·.topic)) rawE rawT) k := by
    rw [List.enum_eq_zip_range] at hpr
    exact (List.of_mem_zip hpr).2
  exact ((mem_candIdxs _ _ _).mp (topIdxs_subset_cand _ _ _ hne _ hj)).2

/-- C10 witness: with the default threshold 0.15 and one fragment scoring
0.35, every returned result clears the threshold. -/
theorem search_respects_threshold_witness :
    (∃ i, i < (hybridScores ⟨15/100, 13/10, 6/10, 7/10, 3/10⟩ none
        ((([⟨[], "p", "c", "diet"⟩, ⟨[], "q", "d", "general"⟩] : List Chunk)).map (·.topic))
        [1/2, 0] [0, 0]).length ∧
      (15/100 : ℚ) ≤ (hybridScores ⟨15/100, 13/10, 6/10, 7/10, 3/10⟩ none
        ((([⟨[], "p", "c", "diet"⟩, ⟨[], "q", "d", "general"⟩] : List Chunk)).map (·.topic))
        [1/2, 0] [0, 0]).getD i 0) ∧
    ∀ r ∈ search ⟨15/100, 13/10, 6/10, 7/10, 3/10⟩
        [⟨[], "p", "c", "diet"⟩, ⟨[], "q", "d", "general"⟩] none [1/2, 0] [0, 0] 2,
      (15/100 : ℚ) ≤ r.score_hybrid := by
  have hex : ∃ i, i < (hybridScores ⟨15/100, 13/10, 6/10, 7/10, 3/10⟩ none
      ((([⟨[], "p", "c", "diet"⟩, ⟨[], "q", "d", "general"⟩] : List Chunk)).map (·.topic))
      [1/2, 0] [0, 0]).length ∧
      (15/100 : ℚ) ≤ (hybridScores ⟨15/100, 13/10, 6/10, 7/10, 3/10⟩ none
      ((([⟨[], "p", "c", "diet"⟩, ⟨[], "q", "d", "general"⟩] : List Chunk)).map (·.topic))
      [1/2, 0] [0, 0]).getD i 0 := ⟨0, by decide, by decide⟩
  exact ⟨hex, search_respects_threshold ⟨15/100, 13/10, 6/10, 7/10, 3/10⟩
    [⟨[], "p", "c", "diet"⟩, ⟨[], "q", "d", "general"⟩] none [1/2, 0] [0, 0] 2 hex⟩

/-- Scaling by a factor of at least 1 cannot lower a clamped score. -/
theorem clip01_boost {b : ℚ} (hb : 1 ≤ b) (x : ℚ) : clip01 x ≤ clip01 (b * x) := by
  rcases le_or_lt 0 x with hx | hx
  · exact clip01_mono (le_mul_of_one_le_left hx hb)
  · rw [clip01_of_nonpos hx.le]
    exact clip01_nonneg _

/-- Scaling by a factor in `[0,1]` cannot raise a clamped score. -/
theorem clip01_shrink {p : ℚ} (hp0 : 0 ≤ p) (hp1 : p ≤ 1) (x : ℚ) :
    clip01 (p * x) ≤ clip01 x := by
  rcases le_or_lt 0 x with hx | hx
  · exact clip01_mono (mul_le_of_le_one_left hx hp1)
  · have hpx : p * x ≤ 0 := by
      calc p * x ≤ p * 0 := mul_le_mul_of_nonneg_left hx.le hp0
        _ = 0 := mul_zero p
    rw [clip01_of_nonpos hx.le, clip01_of_nonpos hpx]

/-- Entry formula of the gated vector. -/
theorem gateVec_getD (P : SearchParams) (hint : Option String) (topics : List String)
    (sims : List ℚ) (h : sims.length = topics.length) (i : Nat) (hi : i < topics.length) :
    (gateVec P hint topics sims).getD i 0 =
      gfac P hint (topics.getD i "") * sims.getD i 0 := by
  cases hint with
  | none => simp [gateVec, gfac]
  | some hq =>
      have hs : i < sims.length := by omega
      have hlen : i < (List.zipWith
          (fun t s => (if t = hq then P.topicBoost else P.offTopicPenalty) * s) topics sims).length := by
        rw [List.length_zipWith]
        omega
      simp only [gateVec]
      rw [List.getD_eq_getElem _ _ hlen, List.getElem_zipWith,
        List.getD_eq_getElem topics "" hi, List.getD_eq_getElem sims 0 hs]
      rfl

/-- Entry formula of the hybrid vector. -/
theorem hybridScores_getD (P : SearchParams) (hint : Option String) (topics : List String)
    (rawE rawT : List ℚ) (h1 : rawE.length = topics.length) (h2 : rawT.length = topics.length)
    (i : Nat) (hi : i < topics.length) :
    (hybridScores P hint topics rawE rawT).getD i 0 =
      clip01 (P.embedWeight * clip01 (gfac P hint (topics.getD i "") * rawE.getD i 0) +
        P.tfidfWeight * clip01 (gfac P hint (topics.getD i "") * rawT.getD i 0)) := by
  have hgE := gateVec_length P hint topics rawE h1
  have hgT := gateVec_length P hint topics rawT h2
  have hiE : i < (gateVec P hint topics rawE).length := by omega
  have hiT : i < (gateVec P hint topics rawT).length := by omega
  have hfuse : i < (fuseRaw P hint topics rawE rawT).length := by
    simp only [fuseRaw, embedScores, tfidfScores, List.length_zipWith, List.length_map, hgE, hgT,
      Nat.min_self]
    exact hi
  have hmap : i < ((fuseRaw P hint topics rawE rawT).map clip01).length := by
    rw [List.length_map]
    exact hfuse
  simp only [hybridScores]
  rw [List.getD_eq_getElem _ _ hmap, List.getElem_map]
  congr 1
  simp only [fuseRaw, embedScores, tfidfScores]
  rw [List.getElem_zipWith, List.getElem_map, List.getElem_map,
    ← List.getD_eq_getElem (gateVec P hint topics rawE) 0 hiE,
    ← List.getD_eq_getElem (gateVec P hint topics rawT) 0 hiT,
    gateVec_getD P hint topics rawE h1 i hi, gateVec_getD P hint topics rawT h2 i hi]

/-- At an index whose topic matches the hint, the gated hybrid score is at
least the ungated one. -/
theorem hybrid_gate_ge (P : SearchParams) (T : String) (topics : List String)
    (rawE rawT : List ℚ) (hb : 1 ≤ P.topicBoost) (hew : 0 ≤ P.embedWeight)
    (htw : 0 ≤ P.tfidfWeight) (h1 : rawE.length = topics.length)
    (h2 : rawT.length = topics.length) (i : Nat) (hi : i < topics.length)
    (ht : topics.getD i "" = T) :
    (hybridScores P none topics rawE rawT).getD i 0 ≤
      (hybridScores P (some T) topics rawE rawT).getD i 0 := by
  rw [hybridScores_getD P none topics rawE rawT h1 h2 i hi,
    hybridScores_getD P (some T) topics rawE rawT h1 h2 i hi]
  simp only [gfac, ht, if_pos, one_mul]
  exact clip01_mono (add_le_add (mul_le_mul_of_nonneg_left (clip01_boost hb _) hew)
    (mul_le_mul_of_nonneg_left (clip01_boost hb _) htw))

/-- At an index whose topic does not match the hint, the gated hybrid score
is at most the ungated one. -/
theorem hybrid_gate_le (P : SearchParams) (T : String) (topics : List String)
    (rawE rawT : List ℚ) (hp0 : 0 ≤ P.offTopicPenalty) (hp1 : P.offTopicPenalty ≤ 1)
    (hew : 0 ≤ P.embedWeight) (htw : 0 ≤ P.tfidfWeight) (h1 : rawE.length = topics.length)
    (h2 : rawT.length = topics.length) (i : Nat) (hi : i < topics.length)
    (ht : ¬ topics.getD i "" = T) :
    (hybridScores P (some T) topics rawE rawT).getD i 0 ≤
      (hybridScores P none topics rawE rawT).getD i 0 := by
  rw [hybridScores_getD P none topics rawE rawT h1 h2 i hi,
    hybridScores_getD P (some T) topics rawE rawT h1 h2 i hi]
  simp only [gfac, ht, if_neg, one_mul, if_false]
  exact clip01_mono (add_le_add (mul_le_mul_of_nonneg_left (clip01_shrink hp0 hp1 _) hew)
    (mul_le_mul_of_nonneg_left (clip01_shrink hp0 hp1 _) htw))

/-- Positionally dominated score vectors dominate on every topic selection:
same number of selected entries and ordered sums. -/
theorem scoresOn_le (p : String → Bool) :
    ∀ (topics : List String) (xs ys : List ℚ),
      xs.length = topics.length → ys.length = topics.length →
      (∀ i, i < topics.length → p (topics.getD i "") = true → xs.getD i 0 ≤ ys.getD i 0) →
      (scoresOn p topics xs).length = (scoresOn p topics ys).length ∧
      (scoresOn p topics xs).sum ≤ (scoresOn p topics ys).sum
  | [], xs, ys, hx, hy, hp => by simp [scoresOn]
  | t :: ts, [], ys, hx, hy, hp => by simp at hx
  | t :: ts, x :: xs, [], hx, hy, hp => by simp at hy
  | t :: ts, x :: xs, y :: ys, hx, hy, hp => by
      have hx2 : xs.length = ts.length := by simpa using hx
      have hy2 : ys.length = ts.length := by simpa using hy
      have hp2 : ∀ i, i < ts.length → p (ts.getD i "") = true → xs.getD i 0 ≤ ys.getD i 0 := by
        intro i hi hpi
        have := hp (i + 1) (by simpa using hi) (by simpa using hpi)
        simpa using this
      obtain ⟨ihl, ihs⟩ := scoresOn_le p ts xs ys hx2 hy2 hp2
      cases hpt : p t with
      | true =>
          have h0 : x ≤ y := by simpa using hp 0 (by simp) (by simpa using hpt)
          have e1 : scoresOn p (t :: ts) (x :: xs) = x :: scoresOn p ts xs := by
            simp [scoresOn, List.filter_cons, hpt]
          have e2 : scoresOn p (t :: ts) (y :: ys) = y :: scoresOn p ts ys := by
            simp [scoresOn, List.filter_cons, hpt]
          rw [e1, e2]
          exact ⟨by simp [ihl], by
            simp only [List.sum_cons]
            exact add_le_add h0 ihs⟩
      | false =>
          have e1 : scoresOn p (t :: ts) (x :: xs) = scoresOn p ts xs := by
            simp [scoresOn, List.filter_cons, hpt]
          have e2 : scoresOn p (t :: ts) (y :: ys) = scoresOn p ts ys := by
            simp [scoresOn, List.filter_cons, hpt]
          rw [e1, e2]
          exact ⟨ihl, ihs⟩

/-- Averages respect dominated sums at equal counts. -/
theorem sum_div_length_le (xs ys : List ℚ) (hl : xs.length = ys.length)
    (hs : xs.sum ≤ ys.sum) : xs.sum / (xs.length : ℚ) ≤ ys.sum / (ys.length : ℚ) := by
  rw [hl]
  rcases Nat.eq_zero_or_pos ys.length with h0 | hpos
  · rw [h0]
    simp
  · have hc : (0 : ℚ) < (ys.length : ℚ) := by exact_mod_cast hpos
    exact (div_le_div_iff_of_pos_right hc).mpr hs

/-- C7: for a query whose inferred hint is `T`, with boost factor at least 1,
penalty factor in `[0,1]` and nonnegative fusion weights, the average
`score_hybrid` of the fragments of topic `T` under gating is at least their
average without gating, and the average of the other fragments under gating
is at most their average without gating. -/
theorem topic_gating_monotone (P : SearchParams) (T : String) (topics : List String)
    (rawE rawT : List ℚ) (hb : 1 ≤ P.topicBoost) (hp0 : 0 ≤ P.offTopicPenalty)
    (hp1 : P.offTopicPenalty ≤ 1) (hew : 0 ≤ P.embedWeight) (htw : 0 ≤ P.tfidfWeight)
    (h1 : rawE.length = topics.length) (h2 : rawT.length = topics.length) :
    avgOn (fun t => t == T) topics (hybridScores P (some T) topics rawE rawT) ≥
      avgOn (fun t => t == T) topics (hybridScores P none topics rawE rawT) ∧
    avgOn (fun t => !(t == T)) topics (hybridScores P (some T) topics rawE rawT) ≤
      avgOn (fun t => !(t == T)) topics (hybridScores P none topics rawE rawT) := by
  have hlN : (hybridScores P none topics rawE rawT).length = topics.length :=
    hybridScores_length P none topics rawE rawT h1 h2
  have hlS : (hybridScores P (some T) topics rawE rawT).length = topics.length :=
    hybridScores_length P (some T) topics rawE rawT h1 h2
  have m1 := scoresOn_le (fun t => t == T) topics
    (hybridScores P none topics rawE rawT) (hybridScores P (some T) topics rawE rawT)
    (by rw [hlN]) (by rw [hlS])
    (fun i hi hpi =>
      hybrid_gate_ge P T topics rawE rawT hb hew htw h1 h2 i hi (by simpa using hpi))
  have m2 := scoresOn_le (fun t => !(t == T)) topics
    (hybridScores P (some T) topics rawE rawT) (hybridScores P none topics rawE rawT)
    (by rw [hlS]) (by rw [hlN])
    (fun i hi hpi =>
      hybrid_gate_le P T topics rawE rawT hp0 hp1 hew htw h1 h2 i hi (by simpa using hpi))
  exact ⟨sum_div_length_le _ _ m1.1 m1.2, sum_div_length_le _ _ m2.1 m2.2⟩

/-- C7 witness: the default configuration (boost 1.3, penalty 0.6, weights
0.7 and 0.3) on a two-topic index. -/
theorem topic_gating_monotone_witness :
    (1 : ℚ) ≤ 13/10 ∧
    (avgOn (fun t => t == "diet") ["diet", "general"]
        (hybridScores ⟨15/100, 13/10, 6/10, 7/10, 3/10⟩ (some "diet") ["diet", "general"]
          [1/2, 1/2] [1/2, 1/2]) ≥
      avgOn (fun t => t == "diet") ["diet", "general"]
        (hybridScores ⟨15/100, 13/10, 6/10, 7/10, 3/10⟩ none ["diet", "general"]
          [1/2, 1/2] [1/2, 1/2]) ∧
    avgOn (fun t => !(t == "diet")) ["diet", "general"]
        (hybridScores ⟨15/100, 13/10, 6/10, 7/10, 3/10⟩ (some "diet") ["diet", "general"]
          [1/2, 1/2] [1/2, 1/2]) ≤
      avgOn (fun t => !(t == "diet")) ["diet", "general"]
        (hybridScores ⟨15/100, 13/10, 6/10, 7/10, 3/10⟩ none ["diet", "general"]
          [1/2, 1/2] [1/2, 1/2])) :=
  ⟨by decide, topic_gating_monotone ⟨15/100, 13/10, 6/10, 7/10, 3/10⟩ "diet"
    ["diet", "general"] [1/2, 1/2] [1/2, 1/2] (by decide) (by decide) (by decide)
    (by decide) (by decide) (by decide) (by decide)⟩

end ClaimTheorems

end Lumawell
